import Mathlib

/-!
# Verification of the rippled Ledger State Engine (Ziftr/rippled)

A shallow embedding of the functions of `src/ripple/app/ledger/Ledger.cpp`
(and the parts of its collaborators that the spec describes), with theorems
settling the frozen claims about them.

Conventions:
* 256-bit hashes (`uint256`) are natural numbers, read big-endian, so the
  "last 8 bytes" of a hash are its value modulo 2^64 and the zero hash is `0`.
* 32-bit machine arithmetic is `Nat` with an explicit `% 2^32` where the
  C++ code can wrap.
* The SHAMap, the serializer, SLE decoding and the hash router are not part
  of the provided sources; they are modelled from the spec (each such
  definition says so in its doc comment).  `sha512Half` is kept as an
  explicit function parameter: nothing proved here depends on the digest.
-/

namespace RippleLedger

/-- 256-bit hash value, big-endian numeric reading; the zero hash is `0`. -/
abbrev H256 := Nat

/-- Modelled from the spec: `SHAMapItem` is a pair `(tag, value)` stored at
the leaf addressed by `tag`.  The value type is left abstract. -/
structure SHAMapItem (V : Type) where
  tag : H256
  value : V
  deriving Repr, DecidableEq

/-- Modelled from the spec: a SHAMap is an authenticated map from 256-bit
tags to values with ordered traversal by tag.  We model it as its leaf
sequence in ascending tag order (`SHAMapSorted` states the order invariant);
the radix-16 tree shape only determines hashing, which stays abstract. -/
abbrev SHAMap (V : Type) := List (SHAMapItem V)

/-- The ascending-tag invariant of the leaf sequence. -/
def SHAMapSorted {V : Type} (m : SHAMap V) : Prop :=
  List.Pairwise (fun a b => a.tag < b.tag) m

instance {V : Type} (m : SHAMap V) : Decidable (SHAMapSorted m) := by
  unfold SHAMapSorted; infer_instance

namespace SHAMap

variable {V : Type}

/-- Modelled from the spec: `hasItem(k)` — true iff a leaf with tag `k`
exists. -/
def hasItem (m : SHAMap V) (k : H256) : Bool :=
  m.any (fun i => i.tag = k)

/-- Modelled from the spec: `peekItem(k)` — the leaf with tag `k`, if any. -/
def peekItem (m : SHAMap V) (k : H256) : Option (SHAMapItem V) :=
  m.find? (fun i => i.tag = k)

/-- Modelled from the spec: `peekNextItem(tag)` — the first item in tag
order whose tag is strictly greater than `k`. -/
def peekNextItem (m : SHAMap V) (k : H256) : Option (SHAMapItem V) :=
  m.find? (fun i => k < i.tag)

/-- Modelled from the spec: `peekPrevItem(tag)` — the last item in tag
order whose tag is strictly less than `k`. -/
def peekPrevItem (m : SHAMap V) (k : H256) : Option (SHAMapItem V) :=
  (m.filter (fun i => i.tag < k)).getLast?

/-- Insertion keeping the ascending tag order. -/
def insertItem (it : SHAMapItem V) : SHAMap V → SHAMap V
  | [] => [it]
  | j :: rest => if it.tag < j.tag then it :: j :: rest else j :: insertItem it rest

/-- Modelled from the spec: `addGiveItem` — inserts; fails (`none`, i.e.
`AlreadyExists`) if the tag is present. -/
def addGiveItem (m : SHAMap V) (it : SHAMapItem V) : Option (SHAMap V) :=
  if hasItem m it.tag then none else some (insertItem it m)

/-- Modelled from the spec: `updateGiveItem` — replaces the value at the
item's tag; fails (`none`, i.e. `Missing`) if the tag is absent. -/
def updateGiveItem (m : SHAMap V) (it : SHAMapItem V) : Option (SHAMap V) :=
  if hasItem m it.tag then
    some (m.map (fun j => if j.tag = it.tag then it else j))
  else none

/-- Modelled from the spec: the root hash is the digest of the canonical
encoding of the tree, or the zero hash when the map is empty.  The encoder
for one leaf and the digest are abstract parameters. -/
def getHash (hf : List Nat → Nat) (enc : SHAMapItem V → List Nat)
    (m : SHAMap V) : H256 :=
  if m.isEmpty then 0 else hf (m.flatMap enc)

end SHAMap

/-! ## LedgerStateParms (Ledger.h, lines 36-48) -/

/-- `lepNONE` — no special flags. -/
def lepNONE : Nat := 0
/-- `lepCREATE` — create if not present. -/
def lepCREATE : Nat := 1
/-- `lepOKAY` — success. -/
def lepOKAY : Nat := 2
/-- `lepMISSING` — no node in that slot. -/
def lepMISSING : Nat := 4
/-- `lepWRONGTYPE` — node of different type there. -/
def lepWRONGTYPE : Nat := 8
/-- `lepCREATED` — node was created. -/
def lepCREATED : Nat := 16
/-- `lepERROR` — error. -/
def lepERROR : Nat := 32

/-! ## Quality indexes (Ledger.cpp, lines 1611-1631)

`getQualityIndex` overwrites the last 8 bytes of the 256-bit base with the
64-bit quality in big-endian; numerically, on the big-endian reading of a
`uint256`, that replaces the value mod 2^64. `getQuality` reads them back. -/

/-- `Ledger::getQualityIndex (uBase, uNodeDir)`: the base with its low
64 bits (last 8 bytes) replaced by the quality, stored big-endian. -/
def getQualityIndex (uBase : H256) (uNodeDir : Nat) : H256 :=
  (uBase / 2 ^ 64) * 2 ^ 64 + uNodeDir % 2 ^ 64

/-- `Ledger::getQuality (uBase)`: the last 64 bits of the index, read
big-endian. -/
def getQuality (uBase : H256) : Nat :=
  uBase % 2 ^ 64

/-! ## Close-time rounding (Ledger.cpp, lines 2010-2018)

All quantities are `uint32`; the addition `closeTime += closeResolution / 2`
can wrap, hence the explicit `% 2^32`.  The final subtraction cannot
underflow since `x % r ≤ x`. -/

/-- `Ledger::roundCloseTime (closeTime, closeResolution)` over `uint32`
arithmetic. -/
def roundCloseTime (closeTime closeResolution : Nat) : Nat :=
  if closeTime = 0 then 0
  else
    let t := (closeTime + closeResolution / 2) % 2 ^ 32
    t - t % closeResolution

/-! ## Ledger index walking (Ledger.cpp, lines 1502-1532)

These act on the account-state map; we take the map as an explicit
argument.  The zero hash `0` signals "no such index". -/

/-- `Ledger::getNextLedgerIndex (uHash, uEnd)` (lines 1508-1516): peeks the
next state item after `uHash`; returns the zero hash when there is none or
its tag exceeds `uEnd`. -/
def getNextLedgerIndexE {V : Type} (m : SHAMap V) (uHash uEnd : H256) : H256 :=
  match SHAMap.peekNextItem m uHash with
  | none => 0
  | some node => if uEnd < node.tag then 0 else node.tag

/-- `Ledger::getPrevLedgerIndex (uHash, uBegin)` (lines 1524-1532),
exactly as written in the source: it calls `peekNextItem` (not
`peekPrevItem`) and bounds the result from below by `uBegin`. -/
def getPrevLedgerIndexE {V : Type} (m : SHAMap V) (uHash uBegin : H256) : H256 :=
  match SHAMap.peekNextItem m uHash with
  | none => 0
  | some node => if node.tag < uBegin then 0 else node.tag

/-! ## writeBack (Ledger.cpp, lines 1278-1317) -/

/-- A state entry (`SLE`) as `writeBack` consumes it: its 256-bit index and
its serialized body (the body stays abstract; `entry->add(serializer)`
becomes the identity on it). -/
structure SLEntry (V : Type) where
  index : H256
  body : V
  deriving Repr, DecidableEq

/-- `Ledger::writeBack (parms, entry)`: result code together with the
account-state map after the call.  Mirrors the source: a missing item
without `lepCREATE` is refused; otherwise insert-or-update, with the
`lepERROR` branches for add/update failures kept. -/
def writeBack {V : Type} (parms : Nat) (entry : SLEntry V) (m : SHAMap V) :
    Nat × SHAMap V :=
  let item : SHAMapItem V := ⟨entry.index, entry.body⟩
  if ¬ SHAMap.hasItem m entry.index then
    if parms &&& lepCREATE = 0 then (lepMISSING, m)
    else
      match SHAMap.addGiveItem m item with
      | none => (lepERROR, m)
      | some m2 => (lepCREATED, m2)
  else
    match SHAMap.updateGiveItem m item with
    | none => (lepERROR, m)
    | some m2 => (lepOKAY, m2)

/-! ## Serializer and header (Ledger.cpp, lines 291-355)

Modelled from the spec: the serializer emits big-endian bytes
(`add32` four bytes, `add64` eight, `add256` thirty-two, …). -/

/-- `w` big-endian bytes of `v` (most significant first). -/
def beBytes (w : Nat) (v : Nat) : List Nat :=
  (List.range w).map (fun i => v / 256 ^ (w - 1 - i) % 256)

/-- Modelled from the spec: `HashPrefix::ledgerMaster`, the domain tag for
ledger headers.  Its numeric value (upstream: ASCII "LWR" shifted, i.e.
0x4C575200) is part of the wire contract; none of the claims depend on it. -/
def hpLedgerMaster : Nat := 0x4C575200

/-- The in-memory ledger header and lifecycle flags of class `Ledger`,
together with its two maps (`none` models a null map pointer).  The map
value type stays generic. -/
structure Ledger (V : Type) where
  parentHash : H256
  transHash : H256
  accountHash : H256
  totCoins : Nat
  ledgerSeq : Nat
  closeTime : Nat
  parentCloseTime : Nat
  closeResolution : Nat
  closeFlags : Nat
  immutable : Bool
  validHash : Bool
  hash : H256
  transactionMap : Option (SHAMap V)
  accountStateMap : Option (SHAMap V)
  deriving Repr, DecidableEq

/-- `Ledger::addRaw (s)` (lines 344-355): the fixed-layout 118-byte header
body, in source order. -/
def addRaw {V : Type} (l : Ledger V) : List Nat :=
  beBytes 4 l.ledgerSeq ++ beBytes 8 l.totCoins ++
  beBytes 32 l.parentHash ++ beBytes 32 l.transHash ++
  beBytes 32 l.accountHash ++ beBytes 4 l.parentCloseTime ++
  beBytes 4 l.closeTime ++ beBytes 1 l.closeResolution ++
  beBytes 1 l.closeFlags

/-- `Ledger::updateHash ()` (lines 291-312): when not immutable, refresh
the two root fields from the maps (zero for a null map); then always
recompute the ledger hash over the prefixed header body and set the
valid-hash flag.  `hf` is the `sha512_half` digest, `enc` the leaf
encoder. -/
def updateHash {V : Type} (hf : List Nat → Nat) (enc : SHAMapItem V → List Nat)
    (l : Ledger V) : Ledger V :=
  let l1 :=
    if ¬ l.immutable then
      { l with
        transHash := match l.transactionMap with
          | some m => SHAMap.getHash hf enc m
          | none => 0
        accountHash := match l.accountStateMap with
          | some m => SHAMap.getHash hf enc m
          | none => 0 }
    else l
  { l1 with
    hash := hf (beBytes 4 hpLedgerMaster ++ addRaw l1)
    validHash := true }

/-- `Ledger::getHash ()` (lines 611-617): run `updateHash` first when the
cached hash is stale. -/
def ledgerGetHash {V : Type} (hf : List Nat → Nat)
    (enc : SHAMapItem V → List Nat) (l : Ledger V) : H256 :=
  if l.validHash then l.hash else (updateHash hf enc l).hash

/-- `Ledger::assertSane ()` (lines 1923-1945): the exact conjunction the
source tests — ledger hash non-zero, account hash non-zero, both maps
present, and the two root fields equal to the live map hashes.  The
transaction root field is *not* tested for being non-zero. -/
def assertSane {V : Type} (hf : List Nat → Nat)
    (enc : SHAMapItem V → List Nat) (l : Ledger V) : Bool :=
  match l.accountStateMap, l.transactionMap with
  | some asm, some txm =>
    l.hash != 0 && l.accountHash != 0 &&
    l.accountHash == SHAMap.getHash hf enc asm &&
    l.transHash == SHAMap.getHash hf enc txm
  | _, _ => false

/-! ## Ledger entries for the skiplist (spec §3, §4.5)

Modelled from the spec: the serialized-object layer (`SLE`) is not among
the sources; for the skiplist logic only two shapes matter: a
LedgerHashes entry (`sfHashes` vector plus `sfLastLedgerSequence`) and any
other entry (e.g. the genesis AccountRoot). -/

inductive LEModel where
  | hashIndex (hashes : List H256) (lastSeq : Nat)
  | acctRoot (id : Nat)
  deriving Repr, DecidableEq

/-- `getFieldV256 (sfHashes)` on an SLE; empty for non-LedgerHashes
entries (only ever applied to LedgerHashes entries here). -/
def sleHashes : LEModel → List H256
  | .hashIndex h _ => h
  | .acctRoot _ => []

/-- `getFieldU32 (sfLastLedgerSequence)` on an SLE; zero default for
non-LedgerHashes entries. -/
def sleLastSeq : LEModel → Nat
  | .hashIndex _ s => s
  | .acctRoot _ => 0

/-- `Ledger::getSLEi` restricted to what `getLedgerHash` needs: decode the
state-map leaf at `idx` (the SLE cache is semantically transparent). -/
def getSLEiMap (om : Option (SHAMap LEModel)) (idx : H256) : Option LEModel :=
  match om with
  | none => none
  | some m => (SHAMap.peekItem m idx).map (fun i => i.value)

/-- Modelled from the spec: `spaceSkipList`, the key-derivation space tag
of the skiplist entries (upstream: ASCII 's'). -/
def spaceSkipList : Nat := 0x73

/-- `Ledger::getLedgerHashIndex ()` (lines 1665-1671): key of the sliding
256-ledger skiplist entry. -/
def getLedgerHashIndexAll (hf : List Nat → Nat) : H256 :=
  hf (beBytes 2 spaceSkipList)

/-- `Ledger::getLedgerHashIndex (desiredLedgerIndex)` (lines 1673-1682):
key of the paged skiplist entry covering `desiredLedgerIndex`. -/
def getLedgerHashIndexFor (hf : List Nat → Nat) (n : Nat) : H256 :=
  hf (beBytes 2 spaceSkipList ++ beBytes 4 (n >>> 16))

/-- `Ledger::getLedgerHash (ledgerIndex)` (lines 1684-1757).  Sequence
numbers are `uint32` (the `mLedgerSeq - 1` comparison is taken mod 2^32);
`diff` is the true difference `mLedgerSeq - ledgerIndex`, which is what the
source computes whenever it is consulted.  A skiplist vector is indexed
with `getD _ 0`; the source only indexes in bounds. -/
def getLedgerHash (hf : List Nat → Nat) (enc : SHAMapItem LEModel → List Nat)
    (l : Ledger LEModel) (ledgerIndex : Nat) : H256 :=
  if l.ledgerSeq < ledgerIndex then 0
  else if ledgerIndex = l.ledgerSeq then ledgerGetHash hf enc l
  else if ledgerIndex = (l.ledgerSeq + 2 ^ 32 - 1) % 2 ^ 32 then l.parentHash
  else
    let diff := l.ledgerSeq - ledgerIndex
    let viaSliding : Option H256 :=
      if diff ≤ 256 then
        match getSLEiMap l.accountStateMap (getLedgerHashIndexAll hf) with
        | some sle =>
          let vec := sleHashes sle
          if diff ≤ vec.length then some (vec.getD (vec.length - diff) 0)
          else none
        | none => none
      else none
    match viaSliding with
    | some h => h
    | none =>
      if ledgerIndex % 256 ≠ 0 then 0
      else
        match getSLEiMap l.accountStateMap (getLedgerHashIndexFor hf ledgerIndex) with
        | some sle =>
          let lastSeq := sleLastSeq sle
          let sDiff := (lastSeq - ledgerIndex) / 256
          let vec := sleHashes sle
          if sDiff < vec.length then vec.getD (vec.length - sDiff - 1) 0
          else 0
        | none => 0

/-! ## Skiplist maintenance (Ledger.cpp, lines 1948-2008) -/

/-- The `getSLE`-then-`getFieldV256 (sfHashes)` read in `updateSkipList`:
the stored hash vector of the skiplist entry at `k`, empty when the entry
is absent (a fresh `ltLEDGER_HASHES` SLE is created in that case). -/
def priorHashes (m : SHAMap LEModel) (k : H256) : List H256 :=
  match SHAMap.peekItem m k with
  | none => []
  | some it => sleHashes it.value

/-- The sliding-list update step of `updateSkipList` (lines 1995-2000):
evict the oldest entry when the list already holds 256, then append the
parent hash. -/
def slidingNext (prior : List H256) (parentHash : H256) : List H256 :=
  (if prior.length = 256 then prior.drop 1 else prior) ++ [parentHash]

/-- `Ledger::updateSkipList ()`, acting on the account-state map of the
ledger with sequence `seq` and parent hash `parentHash`.  Mirrors the
source: nothing at sequence 0; when `prevIndex` is a multiple of 256,
append the parent hash to the paged list at `getLedgerHashIndex(prevIndex)`
(creating it when absent, no eviction); then always append the parent hash
to the sliding list at `getLedgerHashIndex()`, evicting the oldest entry
when the list already holds 256; both entries are stamped with
`LastLedgerSequence = prevIndex` and written back with `lepCREATE`. -/
def updateSkipList (hf : List Nat → Nat) (seq parentHash : Nat)
    (m : SHAMap LEModel) : SHAMap LEModel :=
  if seq = 0 then m
  else
    let prevIndex := seq - 1
    let m1 :=
      if prevIndex % 256 = 0 then
        let key := getLedgerHashIndexFor hf prevIndex
        (writeBack lepCREATE
          ⟨key, LEModel.hashIndex (priorHashes m key ++ [parentHash])
            prevIndex⟩ m).2
      else m
    let key := getLedgerHashIndexAll hf
    (writeBack lepCREATE
      ⟨key, LEModel.hashIndex (slidingNext (priorHashes m1 key) parentHash)
        prevIndex⟩ m1).2

/-- The account-state map along a chain built from genesis by successor
construction (spec §4.5, construction modes 1 and 3): the genesis ledger
(sequence 1, one AccountRoot leaf at `aIdx`) runs no `updateSkipList`; each
successor at sequence `n+1` snapshots its parent's state map and runs
`updateSkipList` with its parent's hash `h n`.  `h i` abstracts the header
hash of the ledger at sequence `i`. -/
def skipChain (hf : List Nat → Nat) (aIdx : H256) (h : Nat → H256) :
    Nat → SHAMap LEModel
  | 0 => []
  | 1 => [⟨aIdx, LEModel.acctRoot 0⟩]
  | n + 2 => updateSkipList hf (n + 2) (h (n + 1)) (skipChain hf aIdx h (n + 1))

/-! ## pendSaveValidated (Ledger.cpp, lines 2023-2061) -/

/-- The process-wide save bookkeeping that `pendSaveValidated` consults:
the hash-router `SF_SAVED` flags and the `sPendingSaves` sequence set. -/
structure SaveState where
  savedFlags : List H256
  pendingSaves : List Nat
  deriving Repr, DecidableEq

/-- Modelled from the spec: `HashRouter::setFlag (hash, SF_SAVED)` sets the
saved flag on the hash and reports whether it was newly set ("Sets a
'saved' flag on the ledger hash; second call short-circuits"). -/
def setFlagSaved (st : SaveState) (h : H256) : Bool × SaveState :=
  if h ∈ st.savedFlags then (false, st)
  else (true, { st with savedFlags := h :: st.savedFlags })

/-- Outcome of one `pendSaveValidated` call: the returned boolean, the
bookkeeping state afterwards, and whether this call performed (or
enqueued) a persistence cycle. -/
structure PendResult where
  returned : Bool
  state : SaveState
  performedSave : Bool
  deriving Repr, DecidableEq

/-- `Ledger::pendSaveValidated (isSynchronous, isCurrent)` for the ledger
with hash `hash` and sequence `seq`.  Mirrors the source: a hash whose
saved flag is already set returns `true` at once; a sequence already in
`sPendingSaves` returns `true` at once; otherwise the save is run inline
(returning `saveResult`, the outcome of `saveValidatedLedger`) or enqueued
(at current or old priority) and `true` is returned. -/
def pendSaveValidated (saveResult : Bool) (st : SaveState) (hash : H256)
    (seq : Nat) (isSynchronous isCurrent : Bool) : PendResult :=
  match setFlagSaved st hash with
  | (false, st1) => ⟨true, st1, false⟩
  | (true, st1) =>
    if seq ∈ st1.pendingSaves then ⟨true, st1, false⟩
    else
      let st2 := { st1 with pendingSaves := seq :: st1.pendingSaves }
      if isSynchronous then ⟨saveResult, st2, true⟩
      else if isCurrent then ⟨true, st2, true⟩
      else ⟨true, st2, true⟩

/-! ## Spec-side definitions used to state claims -/

/-- "The first account-state item whose tag is strictly greater than `h`":
`it` is a member with `h < tag`, minimal among all such members. -/
def IsFirstTagAbove {V : Type} (m : SHAMap V) (h : H256) (it : SHAMapItem V) : Prop :=
  it ∈ m ∧ h < it.tag ∧ ∀ j ∈ m, h < j.tag → it.tag ≤ j.tag

instance {V : Type} [DecidableEq V] (m : SHAMap V) (h : H256)
    (it : SHAMapItem V) : Decidable (IsFirstTagAbove m h it) := by
  unfold IsFirstTagAbove; infer_instance

/-- "The last account-state item whose tag is strictly less than `h`":
`it` is a member with `tag < h`, maximal among all such members. -/
def IsLastTagBelow {V : Type} (m : SHAMap V) (h : H256) (it : SHAMapItem V) : Prop :=
  it ∈ m ∧ it.tag < h ∧ ∀ j ∈ m, j.tag < h → j.tag ≤ it.tag

/-- The claim's reading of `assertSane` (it additionally demands a non-zero
transaction root field), as a boolean for direct comparison with the
source's `assertSane`. -/
def assertSaneClaim {V : Type} (hf : List Nat → Nat)
    (enc : SHAMapItem V → List Nat) (l : Ledger V) : Bool :=
  l.hash != 0 && l.accountHash != 0 && l.transHash != 0 &&
  (match l.accountStateMap, l.transactionMap with
   | some asm, some txm =>
     (l.accountHash == SHAMap.getHash hf enc asm) &&
     (l.transHash == SHAMap.getHash hf enc txm)
   | _, _ => false)

/-- Concrete digest used in closed instantiations: every preimage hashes
to 1. -/
def hfOne : List Nat → Nat := fun _ => 1

/-- Concrete leaf encoder used in closed instantiations: every leaf
encodes to the empty byte string. -/
def encNil {V : Type} : SHAMapItem V → List Nat := fun _ => []

/-- Concrete ledger exercising `assertSane`: hash and account root
non-zero and matching the (non-empty) state map, transaction root zero and
matching the empty transaction map. -/
def ledgerC1 : Ledger Nat :=
  { parentHash := 0, transHash := 0, accountHash := 1, totCoins := 0,
    ledgerSeq := 1, closeTime := 0, parentCloseTime := 0,
    closeResolution := 0, closeFlags := 0, immutable := true,
    validHash := true, hash := 1, transactionMap := some [],
    accountStateMap := some [⟨0, 0⟩] }

/-- Concrete immutable ledger exercising `updateHash`. -/
def ledgerC10 : Ledger Nat :=
  { parentHash := 3, transHash := 4, accountHash := 5, totCoins := 6,
    ledgerSeq := 7, closeTime := 8, parentCloseTime := 9,
    closeResolution := 10, closeFlags := 0, immutable := true,
    validHash := false, hash := 11, transactionMap := none,
    accountStateMap := some [] }

/-- Concrete ledger at sequence 500 exercising `getLedgerHash`. -/
def ledgerC3 : Ledger LEModel :=
  { parentHash := 88, transHash := 0, accountHash := 0, totCoins := 0,
    ledgerSeq := 500, closeTime := 0, parentCloseTime := 0,
    closeResolution := 0, closeFlags := 0, immutable := true,
    validHash := true, hash := 77, transactionMap := some [],
    accountStateMap := some [] }

/-- Concrete sorted state map exercising the ordered-walk functions. -/
def mapC9 : SHAMap Unit := [⟨3, ()⟩, ⟨7, ()⟩]

/-- Concrete sorted state map exercising `getPrevLedgerIndex`. -/
def mapC2 : SHAMap Nat := [⟨2, 0⟩, ⟨5, 0⟩]

/-- Concrete digest used to instantiate the abstract `sha512_half` in the
closed skiplist computations: it separates the 2-byte sliding-skiplist
preimage from every 6-byte paged-skiplist preimage. -/
def hfC4 : List Nat → Nat :=
  fun l => if l.length = 2 then 0 else 1

/-- Concrete ledger-hash assignment for the closed skiplist computations:
the ledger at sequence `i` has hash `100 + i`. -/
def hSeqC4 : Nat → Nat :=
  fun i => 100 + i

/-! ## Helper lemmas about the map model -/

theorem hasItem_cons_false {V : Type} {a : SHAMapItem V} {rest : SHAMap V}
    {k : H256} (h : SHAMap.hasItem (a :: rest) k = false) :
    a.tag ≠ k ∧ SHAMap.hasItem rest k = false := by
  simp only [SHAMap.hasItem, List.any_cons, Bool.or_eq_false_iff,
    decide_eq_false_iff_not] at h
  exact ⟨h.1, by simpa [SHAMap.hasItem] using h.2⟩

theorem peekItem_insertItem_self {V : Type} (it : SHAMapItem V)
    (m : SHAMap V) (h : SHAMap.hasItem m it.tag = false) :
    SHAMap.peekItem (SHAMap.insertItem it m) it.tag = some it := by
  induction m with
  | nil => simp [SHAMap.insertItem, SHAMap.peekItem]
  | cons a rest ih =>
    obtain ⟨ha, hrest⟩ := hasItem_cons_false h
    rw [SHAMap.insertItem]
    by_cases hlt : it.tag < a.tag
    · rw [if_pos hlt, SHAMap.peekItem, List.find?_cons_of_pos _ (by simp)]
    · rw [if_neg hlt, SHAMap.peekItem,
        List.find?_cons_of_neg _ (by simp [ha])]
      exact ih hrest

theorem peekItem_insertItem_other {V : Type} (it : SHAMapItem V)
    (m : SHAMap V) (k : H256) (hk : k ≠ it.tag) :
    SHAMap.peekItem (SHAMap.insertItem it m) k = SHAMap.peekItem m k := by
  induction m with
  | nil =>
    rw [SHAMap.insertItem, SHAMap.peekItem,
      List.find?_cons_of_neg _ (by simp [Ne.symm hk])]
    rfl
  | cons a rest ih =>
    rw [SHAMap.insertItem]
    by_cases hlt : it.tag < a.tag
    · rw [if_pos hlt, SHAMap.peekItem,
        List.find?_cons_of_neg _ (by simp [Ne.symm hk])]
      rfl
    · rw [if_neg hlt]
      by_cases hak : a.tag = k
      · rw [SHAMap.peekItem, List.find?_cons_of_pos _ (by simp [hak]),
          SHAMap.peekItem, List.find?_cons_of_pos _ (by simp [hak])]
      · rw [SHAMap.peekItem, List.find?_cons_of_neg _ (by simp [hak]),
          SHAMap.peekItem, List.find?_cons_of_neg _ (by simp [hak])]
        exact ih

theorem peekItem_update_self {V : Type} (it : SHAMapItem V) (m : SHAMap V)
    (h : SHAMap.hasItem m it.tag = true) :
    SHAMap.peekItem
      (m.map (fun j => if j.tag = it.tag then it else j)) it.tag = some it := by
  induction m with
  | nil => simp [SHAMap.hasItem] at h
  | cons a rest ih =>
    simp only [List.map_cons]
    by_cases hak : a.tag = it.tag
    · rw [if_pos hak, SHAMap.peekItem, List.find?_cons_of_pos _ (by simp)]
    · rw [if_neg hak, SHAMap.peekItem,
        List.find?_cons_of_neg _ (by simp [hak])]
      apply ih
      simp only [SHAMap.hasItem, List.any_cons, decide_eq_true_eq,
        Bool.or_eq_true] at h ⊢
      exact h.resolve_left (by simpa using hak)

theorem peekItem_update_other {V : Type} (it : SHAMapItem V) (m : SHAMap V)
    (k : H256) (hk : k ≠ it.tag) :
    SHAMap.peekItem (m.map (fun j => if j.tag = it.tag then it else j)) k =
      SHAMap.peekItem m k := by
  induction m with
  | nil => simp [SHAMap.peekItem]
  | cons a rest ih =>
    simp only [List.map_cons]
    by_cases hak : a.tag = it.tag
    · rw [if_pos hak, SHAMap.peekItem,
        List.find?_cons_of_neg _ (by simp [Ne.symm hk]), SHAMap.peekItem,
        List.find?_cons_of_neg _ (by simp [hak, Ne.symm hk])]
      exact ih
    · rw [if_neg hak]
      by_cases hck : a.tag = k
      · rw [SHAMap.peekItem, List.find?_cons_of_pos _ (by simp [hck]),
          SHAMap.peekItem, List.find?_cons_of_pos _ (by simp [hck])]
      · rw [SHAMap.peekItem, List.find?_cons_of_neg _ (by simp [hck]),
          SHAMap.peekItem, List.find?_cons_of_neg _ (by simp [hck])]
        exact ih

theorem hasItem_eq_isSome_peekItem {V : Type} (m : SHAMap V) (k : H256) :
    SHAMap.hasItem m k = (SHAMap.peekItem m k).isSome := by
  induction m with
  | nil => simp [SHAMap.hasItem, SHAMap.peekItem]
  | cons a rest ih =>
    simp only [SHAMap.hasItem, SHAMap.peekItem, List.any_cons,
      List.find?_cons] at ih ⊢
    by_cases hak : a.tag = k
    · simp [hak]
    · simp [hak, ih]

theorem writeBack_create_peekItem_self {V : Type} (e : SLEntry V)
    (m : SHAMap V) :
    SHAMap.peekItem (writeBack lepCREATE e m).2 e.index =
      some ⟨e.index, e.body⟩ := by
  simp only [writeBack]
  by_cases hh : SHAMap.hasItem m e.index = true
  · rw [if_neg (by simp [hh]), SHAMap.updateGiveItem, if_pos hh]
    exact peekItem_update_self ⟨e.index, e.body⟩ m hh
  · rw [if_pos (by simpa using hh),
      if_neg (by decide : ¬ (lepCREATE &&& lepCREATE = 0)),
      SHAMap.addGiveItem, if_neg hh]
    exact peekItem_insertItem_self ⟨e.index, e.body⟩ m (by simpa using hh)

theorem writeBack_peekItem_other {V : Type} (parms : Nat) (e : SLEntry V)
    (m : SHAMap V) (k : H256) (hk : k ≠ e.index) :
    SHAMap.peekItem (writeBack parms e m).2 k = SHAMap.peekItem m k := by
  simp only [writeBack]
  by_cases hh : SHAMap.hasItem m e.index = true
  · rw [if_neg (by simp [hh]), SHAMap.updateGiveItem, if_pos hh]
    exact peekItem_update_other ⟨e.index, e.body⟩ m k hk
  · rw [if_pos (by simpa using hh)]
    by_cases hc : parms &&& lepCREATE = 0
    · rw [if_pos hc]
    · rw [if_neg hc, SHAMap.addGiveItem, if_neg hh]
      exact peekItem_insertItem_other ⟨e.index, e.body⟩ m k hk

theorem peekNextItem_eq_none {V : Type} {m : SHAMap V} {k : H256}
    (h : SHAMap.peekNextItem m k = none) : ∀ j ∈ m, j.tag ≤ k := by
  rw [SHAMap.peekNextItem, List.find?_eq_none] at h
  intro j hj
  have := h j hj
  simpa using this

theorem peekNextItem_eq_some {V : Type} {m : SHAMap V}
    (hs : SHAMapSorted m) {k : H256} {it : SHAMapItem V}
    (h : SHAMap.peekNextItem m k = some it) : IsFirstTagAbove m k it := by
  induction m with
  | nil => simp [SHAMap.peekNextItem] at h
  | cons a rest ih =>
    obtain ⟨hall, hrest⟩ := List.pairwise_cons.mp hs
    by_cases hpa : k < a.tag
    · rw [SHAMap.peekNextItem, List.find?_cons_of_pos _ (by simp [hpa])] at h
      cases h
      refine ⟨List.mem_cons_self _ _, hpa, ?_⟩
      intro j hj _
      rcases List.mem_cons.mp hj with hj | hj
      · rw [hj]
      · exact le_of_lt (hall j hj)
    · rw [SHAMap.peekNextItem, List.find?_cons_of_neg _ (by simp [hpa])] at h
      obtain ⟨hmem, hkt, hmin⟩ := ih hrest h
      refine ⟨List.mem_cons_of_mem a hmem, hkt, ?_⟩
      intro j hj hjk
      rcases List.mem_cons.mp hj with hj | hj
      · exact absurd (hj ▸ hjk) hpa
      · exact hmin j hj hjk

theorem mem_savedFlags_pend (sr : Bool) (st : SaveState) (h : H256)
    (q : Nat) (b1 b2 : Bool) :
    h ∈ (pendSaveValidated sr st h q b1 b2).state.savedFlags := by
  unfold pendSaveValidated setFlagSaved
  by_cases hm : h ∈ st.savedFlags
  · simp only [if_pos hm]
    simpa using hm
  · simp only [if_neg hm]
    by_cases hq : q ∈ st.pendingSaves
    · simp [hq]
    · cases b1 <;> cases b2 <;> simp [hq]

/-- The rounding formula of `roundCloseTime` for a non-zero close time. -/
theorem roundCloseTime_spec (t r : Nat) (ht : t ≠ 0) :
    roundCloseTime t r =
      (t + r / 2) % 2 ^ 32 - (t + r / 2) % 2 ^ 32 % r := by
  rw [roundCloseTime, if_neg ht]

/-! ## The claims -/

/-- C5: for every 256-bit base `B` and 64-bit quality `q`,
`getQuality (getQualityIndex B q) = q`, the top 24 bytes of
`getQualityIndex B q` equal the top 24 bytes of `B`, and `getQuality` of
the constant `0xD2DC…8000` equals 6125895493223874560. -/
theorem C5_quality_roundtrip (B q : Nat) (hq : q < 2 ^ 64) :
    getQuality (getQualityIndex B q) = q ∧
    getQualityIndex B q / 2 ^ 64 = B / 2 ^ 64 ∧
    getQuality
      0xD2DC44E5DC189318DB36EF87D2104CDF0A0FE3A4B698BEEE55038D7EA4C68000 =
      6125895493223874560 := by
  refine ⟨?_, ?_, by rfl⟩
  · unfold getQuality getQualityIndex
    rw [Nat.mod_eq_of_lt hq, Nat.mul_comm, Nat.mul_add_mod]
    exact Nat.mod_eq_of_lt hq
  · unfold getQualityIndex
    rw [Nat.mod_eq_of_lt hq, Nat.mul_comm,
      Nat.mul_add_div (by norm_num : 0 < 2 ^ 64),
      Nat.div_eq_of_lt hq, Nat.add_zero]

/-- C5 witness: the round-trip at `B = 0xD2DC…8000`, `q = 42`. -/
theorem C5_quality_roundtrip_witness :
    42 < 2 ^ 64 ∧
    (getQuality (getQualityIndex
        0xD2DC44E5DC189318DB36EF87D2104CDF0A0FE3A4B698BEEE55038D7EA4C68000
        42) = 42 ∧
     getQualityIndex
        0xD2DC44E5DC189318DB36EF87D2104CDF0A0FE3A4B698BEEE55038D7EA4C68000
        42 / 2 ^ 64 =
       0xD2DC44E5DC189318DB36EF87D2104CDF0A0FE3A4B698BEEE55038D7EA4C68000
         / 2 ^ 64 ∧
     getQuality
        0xD2DC44E5DC189318DB36EF87D2104CDF0A0FE3A4B698BEEE55038D7EA4C68000 =
       6125895493223874560) :=
  ⟨by norm_num,
   C5_quality_roundtrip
     0xD2DC44E5DC189318DB36EF87D2104CDF0A0FE3A4B698BEEE55038D7EA4C68000
     42 (by norm_num)⟩

/-- C6 counterexample: at `closeTime = 2^32 − 2`, `closeResolution = 4` the
`uint32` addition `closeTime += closeResolution / 2` wraps to 0 and the
function returns 0, so `|round(t,r) − t| ≤ r/2` fails (as does the claim's
un-wrapped formula, which gives `2^32`). -/
theorem C6_roundCloseTime_counterexample :
    roundCloseTime 4294967294 4 = 0 ∧
    ¬ (((roundCloseTime 4294967294 4 : Int) - 4294967294).natAbs ≤ 4 / 2) := by
  have h0 : roundCloseTime 4294967294 4 = 0 := by rfl
  refine ⟨h0, ?_⟩
  rw [h0]
  decide

/-- C6 amended: for every close time `t` and resolution `r > 0` such that
`t + r < 2^32` (so the `uint32` addition never wraps in either
application), `roundCloseTime` is idempotent and moves the close time by
at most `r / 2`. -/
theorem C6_roundCloseTime_props (t r : Nat) (hr : 0 < r)
    (hov : t + r < 2 ^ 32) :
    roundCloseTime (roundCloseTime t r) r = roundCloseTime t r ∧
    ((roundCloseTime t r : Int) - t).natAbs ≤ r / 2 := by
  by_cases ht : t = 0
  · subst ht
    exact ⟨rfl, by simp [roundCloseTime]⟩
  · have hrk : r / 2 < r := Nat.div_lt_self hr (by norm_num)
    have hhalf : r / 2 ≤ r := Nat.div_le_self r 2
    have hlt : t + r / 2 < 2 ^ 32 := by omega
    have e1 : roundCloseTime t r = t + r / 2 - (t + r / 2) % r := by
      rw [roundCloseTime_spec t r ht, Nat.mod_eq_of_lt hlt]
    have hm : (t + r / 2) % r < r := Nat.mod_lt _ hr
    have hdm : r * ((t + r / 2) / r) + (t + r / 2) % r = t + r / 2 :=
      Nat.div_add_mod (t + r / 2) r
    constructor
    · by_cases hz : roundCloseTime t r = 0
      · rw [hz]; rfl
      · rw [roundCloseTime_spec (roundCloseTime t r) r hz]
        have hR : roundCloseTime t r = r * ((t + r / 2) / r) := by omega
        have hlt2 : roundCloseTime t r + r / 2 < 2 ^ 32 := by omega
        rw [Nat.mod_eq_of_lt hlt2]
        have hmr : (roundCloseTime t r + r / 2) % r = r / 2 := by
          rw [hR, Nat.mul_add_mod]
          exact Nat.mod_eq_of_lt hrk
        rw [hmr]
        omega
    · rw [e1]
      omega

/-- C6 witness for the amended statement: `t = 10`, `r = 4`. -/
theorem C6_roundCloseTime_props_witness :
    0 < 4 ∧ 10 + 4 < 2 ^ 32 ∧
    (roundCloseTime (roundCloseTime 10 4) 4 = roundCloseTime 10 4 ∧
     ((roundCloseTime 10 4 : Int) - 10).natAbs ≤ 4 / 2) :=
  ⟨by norm_num, by norm_num,
   C6_roundCloseTime_props 10 4 (by norm_num) (by norm_num)⟩

/-- C8: `pendSaveValidated` is idempotent — after any first call for a
given ledger hash, a second call with the same hash observes the saved
flag, returns `true`, and performs no persistence cycle, whatever the
sync/current modes and whatever the inline save returned. -/
theorem C8_pendSaveValidated_idempotent (sr1 sr2 : Bool) (st : SaveState)
    (hsh : H256) (seq : Nat) (b1 b2 b3 b4 : Bool) :
    (pendSaveValidated sr2 (pendSaveValidated sr1 st hsh seq b1 b2).state
        hsh seq b3 b4).returned = true ∧
    (pendSaveValidated sr2 (pendSaveValidated sr1 st hsh seq b1 b2).state
        hsh seq b3 b4).performedSave = false := by
  have hm := mem_savedFlags_pend sr1 st hsh seq b1 b2
  rw [pendSaveValidated, setFlagSaved, if_pos hm]
  exact ⟨rfl, rfl⟩

/-- C10: on an immutable ledger, `updateHash` leaves the transaction-root
and account-root header fields (and everything else but the hash and the
valid-hash flag) unchanged, and recomputes the ledger hash from the
existing header body alone. -/
theorem C10_updateHash_immutable {V : Type} (hf : List Nat → Nat)
    (enc : SHAMapItem V → List Nat) (l : Ledger V)
    (him : l.immutable = true) :
    updateHash hf enc l =
      { l with hash := hf (beBytes 4 hpLedgerMaster ++ addRaw l),
               validHash := true } := by
  simp [updateHash, him]

/-- C10 witness: a concrete immutable ledger. -/
theorem C10_updateHash_immutable_witness :
    ledgerC10.immutable = true ∧
    updateHash hfOne encNil ledgerC10 =
      { ledgerC10 with
          hash := hfOne (beBytes 4 hpLedgerMaster ++ addRaw ledgerC10),
          validHash := true } :=
  ⟨rfl, C10_updateHash_immutable hfOne encNil ledgerC10 rfl⟩

/-- C7: `writeBack` returns `lepMISSING` and leaves the map unchanged when
the entry is absent and the Create bit is clear; inserts and returns
`lepCREATED` when absent and Create is set; updates in place and returns
`lepOKAY` when present; and never creates an entry when Create is clear. -/
theorem C7_writeBack {V : Type} (parms : Nat) (e : SLEntry V)
    (m : SHAMap V) :
    (SHAMap.hasItem m e.index = false → parms &&& lepCREATE = 0 →
      writeBack parms e m = (lepMISSING, m)) ∧
    (SHAMap.hasItem m e.index = false → parms &&& lepCREATE ≠ 0 →
      (writeBack parms e m).1 = lepCREATED ∧
      SHAMap.peekItem (writeBack parms e m).2 e.index =
        some ⟨e.index, e.body⟩ ∧
      ∀ k, k ≠ e.index →
        SHAMap.peekItem (writeBack parms e m).2 k = SHAMap.peekItem m k) ∧
    (SHAMap.hasItem m e.index = true →
      (writeBack parms e m).1 = lepOKAY ∧
      SHAMap.peekItem (writeBack parms e m).2 e.index =
        some ⟨e.index, e.body⟩ ∧
      ∀ k, k ≠ e.index →
        SHAMap.peekItem (writeBack parms e m).2 k = SHAMap.peekItem m k) ∧
    (parms &&& lepCREATE = 0 →
      SHAMap.hasItem (writeBack parms e m).2 e.index =
        SHAMap.hasItem m e.index) := by
  refine ⟨?_, ?_, ?_, ?_⟩
  · intro hab hc
    simp only [writeBack]
    rw [if_pos (by simp [hab]), if_pos hc]
  · intro hab hc
    have hwb : writeBack parms e m =
        (lepCREATED, SHAMap.insertItem ⟨e.index, e.body⟩ m) := by
      simp only [writeBack]
      rw [if_pos (by simp [hab]), if_neg hc, SHAMap.addGiveItem,
        if_neg (by simp [hab])]
    refine ⟨by rw [hwb], ?_, ?_⟩
    · rw [hwb]
      exact peekItem_insertItem_self ⟨e.index, e.body⟩ m hab
    · intro k hk
      rw [hwb]
      exact peekItem_insertItem_other ⟨e.index, e.body⟩ m k hk
  · intro hpr
    have hwb : writeBack parms e m =
        (lepOKAY,
         m.map (fun j => if j.tag = e.index then ⟨e.index, e.body⟩ else j)) := by
      simp only [writeBack]
      rw [if_neg (by simp [hpr]), SHAMap.updateGiveItem, if_pos hpr]
    refine ⟨by rw [hwb], ?_, ?_⟩
    · rw [hwb]
      exact peekItem_update_self ⟨e.index, e.body⟩ m hpr
    · intro k hk
      rw [hwb]
      exact peekItem_update_other ⟨e.index, e.body⟩ m k hk
  · intro hc
    by_cases hab : SHAMap.hasItem m e.index = true
    · have hwb : writeBack parms e m =
          (lepOKAY,
           m.map (fun j => if j.tag = e.index then ⟨e.index, e.body⟩ else j)) := by
        simp only [writeBack]
        rw [if_neg (by simp [hab]), SHAMap.updateGiveItem, if_pos hab]
      rw [hwb, hab, hasItem_eq_isSome_peekItem,
        peekItem_update_self ⟨e.index, e.body⟩ m hab]
      rfl
    · have hab' : SHAMap.hasItem m e.index = false := by
        simpa using hab
      simp only [writeBack]
      rw [if_pos (by simp [hab']), if_pos hc]

/-- C7 witness: the missing-without-Create and the created branches at
concrete inputs. -/
theorem C7_writeBack_witness :
    writeBack 0 (⟨5, 3⟩ : SLEntry Nat) [] = (lepMISSING, []) ∧
    (writeBack 1 (⟨5, 3⟩ : SLEntry Nat) []).1 = lepCREATED :=
  ⟨(C7_writeBack 0 ⟨5, 3⟩ []).1 rfl rfl,
   ((C7_writeBack 1 ⟨5, 3⟩ []).2.1 rfl (by decide)).1⟩

/-- C2: the source body of `getPrevLedgerIndex (hash, begin)` calls
`peekNextItem`: with state items tagged 2 and 5, `getPrevLedgerIndex(4,0)`
returns 5 — a tag *greater* than the argument — whereas the last item
strictly below 4 (and ≥ 0) is the one tagged 2. -/
theorem C2_getPrevLedgerIndex_eval :
    getPrevLedgerIndexE mapC2 4 0 = 5 ∧
    ¬ (getPrevLedgerIndexE mapC2 4 0 < 4) ∧
    SHAMap.peekPrevItem mapC2 4 = some ⟨2, 0⟩ := by
  decide

/-- C9: `getNextLedgerIndex (h, end)` returns the tag of the first state
item strictly above `h` whenever that tag is at most `end` (the bound is
inclusive), and the zero hash when there is no successor or the successor
tag exceeds `end`. -/
theorem C9_getNextLedgerIndex {V : Type} (m : SHAMap V)
    (hs : SHAMapSorted m) (h e : H256) :
    (∀ it : SHAMapItem V, IsFirstTagAbove m h it →
      (it.tag ≤ e → getNextLedgerIndexE m h e = it.tag) ∧
      (e < it.tag → getNextLedgerIndexE m h e = 0)) ∧
    ((∀ j ∈ m, j.tag ≤ h) → getNextLedgerIndexE m h e = 0) := by
  constructor
  · intro it ⟨hmem, hlt, hmin⟩
    cases hpk : SHAMap.peekNextItem m h with
    | none =>
      exact absurd hlt (not_lt.mpr (peekNextItem_eq_none hpk it hmem))
    | some it2 =>
      obtain ⟨hm2, hl2, hmin2⟩ := peekNextItem_eq_some hs hpk
      have heq : it2.tag = it.tag :=
        le_antisymm (hmin2 it hmem hlt) (hmin it2 hm2 hl2)
      have hred : getNextLedgerIndexE m h e =
          if e < it2.tag then 0 else it2.tag := by
        rw [getNextLedgerIndexE, hpk]
      constructor
      · intro hle
        rw [hred, heq, if_neg (not_lt.mpr hle)]
      · intro hgt
        rw [hred, heq, if_pos hgt]
  · intro hall
    rw [getNextLedgerIndexE]
    have : SHAMap.peekNextItem m h = none := by
      rw [SHAMap.peekNextItem, List.find?_eq_none]
      intro x hx
      simpa using not_lt.mpr (hall x hx)
    rw [this]

/-- C9 witness: the inclusive upper bound at a concrete sorted map — the
successor of 2 in `{3, 7}` bounded by `end = 3` is returned even though it
equals the bound. -/
theorem C9_getNextLedgerIndex_witness :
    getNextLedgerIndexE mapC9 2 3 = 3 :=
  ((C9_getNextLedgerIndex mapC9 (by decide) 2 3).1 ⟨3, ()⟩ (by decide)).1
    (by decide)

/-- C1 counterexample: a ledger whose transaction root field is zero (and
equal to the empty transaction map's hash) passes `assertSane`, but the
claim's reading — which also requires a non-zero transaction root — does
not hold, so the stated equivalence fails. -/
theorem C1_assertSane_counterexample :
    ¬ (assertSane hfOne encNil ledgerC1 = true ↔
       assertSaneClaim hfOne encNil ledgerC1 = true) := by
  decide

/-- C1 amended: `assertSane` returns true iff the ledger hash and the
account root field are non-zero, both maps are present, and the two header
root fields equal the live map hashes (the transaction root is *not*
required to be non-zero). -/
theorem C1_assertSane_iff {V : Type} (hf : List Nat → Nat)
    (enc : SHAMapItem V → List Nat) (l : Ledger V) :
    assertSane hf enc l = true ↔
      (l.hash ≠ 0 ∧ l.accountHash ≠ 0 ∧
       ∃ asm txm,
         l.accountStateMap = some asm ∧ l.transactionMap = some txm ∧
         l.accountHash = SHAMap.getHash hf enc asm ∧
         l.transHash = SHAMap.getHash hf enc txm) := by
  cases hA : l.accountStateMap with
  | none => simp [assertSane, hA]
  | some asm =>
    cases hT : l.transactionMap with
    | none => simp [assertSane, hA, hT]
    | some txm =>
      simp only [assertSane, hA, hT, Bool.and_eq_true, bne_iff_ne,
        beq_iff_eq, ne_eq]
      constructor
      · rintro ⟨⟨⟨h1, h2⟩, h3⟩, h4⟩
        exact ⟨h1, h2, asm, txm, rfl, rfl, h3, h4⟩
      · rintro ⟨h1, h2, asm2, txm2, ha2, ht2, h3, h4⟩
        cases ha2
        cases ht2
        exact ⟨⟨⟨h1, h2⟩, h3⟩, h4⟩

/-- C3: `getLedgerHash` rejects future targets, returns the own (cached or
recomputed) hash at the own sequence, the stored parent hash one below it,
and the zero hash for a target more than 256 back that is not a multiple
of 256 — all independently of the skiplist contents. -/
theorem C3_getLedgerHash (hf : List Nat → Nat)
    (enc : SHAMapItem LEModel → List Nat) (l : Ledger LEModel) (t : Nat)
    (hs32 : l.ledgerSeq < 2 ^ 32) (ht32 : t < 2 ^ 32) :
    (l.ledgerSeq < t → getLedgerHash hf enc l t = 0) ∧
    (t = l.ledgerSeq → getLedgerHash hf enc l t = ledgerGetHash hf enc l) ∧
    (1 ≤ l.ledgerSeq → t = l.ledgerSeq - 1 →
      getLedgerHash hf enc l t = l.parentHash) ∧
    (256 < l.ledgerSeq - t → t % 256 ≠ 0 → getLedgerHash hf enc l t = 0) := by
  have h32 : (2 : ℕ) ^ 32 = 4294967296 := by norm_num
  refine ⟨?_, ?_, ?_, ?_⟩
  · intro hgt
    rw [getLedgerHash, if_pos hgt]
  · intro heq
    rw [getLedgerHash, if_neg (by omega), if_pos heq]
  · intro hs1 ht
    have hmod : (l.ledgerSeq + 2 ^ 32 - 1) % 2 ^ 32 = l.ledgerSeq - 1 := by
      have h1 : l.ledgerSeq + 2 ^ 32 - 1 = (l.ledgerSeq - 1) + 2 ^ 32 := by
        omega
      rw [h1, Nat.add_mod_right]
      exact Nat.mod_eq_of_lt (by omega)
    subst ht
    rw [getLedgerHash, if_neg (by omega), if_neg (by omega),
      if_pos hmod.symm]
  · intro hd hm
    have hs1 : 257 ≤ l.ledgerSeq := by omega
    have hmod : (l.ledgerSeq + 2 ^ 32 - 1) % 2 ^ 32 = l.ledgerSeq - 1 := by
      have h1 : l.ledgerSeq + 2 ^ 32 - 1 = (l.ledgerSeq - 1) + 2 ^ 32 := by
        omega
      rw [h1, Nat.add_mod_right]
      exact Nat.mod_eq_of_lt (by omega)
    simp only [getLedgerHash]
    rw [if_neg (show ¬ l.ledgerSeq < t by omega),
      if_neg (show ¬ t = l.ledgerSeq by omega),
      if_neg (show ¬ t = (l.ledgerSeq + 2 ^ 32 - 1) % 2 ^ 32 by
        rw [hmod]; omega),
      if_neg (show ¬ l.ledgerSeq - t ≤ 256 by omega)]
    simp [hm]

/-- C3 witness: the parent-hash case at a concrete ledger of sequence 500
with stored parent hash 88. -/
theorem C3_getLedgerHash_witness :
    getLedgerHash hfOne encNil ledgerC3 499 = 88 :=
  (C3_getLedgerHash hfOne encNil ledgerC3 499 (by decide) (by decide)).2.2.1
    (by decide) (by decide)

/-- After `updateSkipList` at a non-zero sequence, the sliding skiplist
entry holds the evict-and-append of whatever list was stored before, and
is stamped with the previous sequence — provided the sliding key collides
with no paged key. -/
theorem updateSkipList_peekAll (hf : List Nat → Nat) (seq parentHash : Nat)
    (m : SHAMap LEModel) (hseq : seq ≠ 0)
    (hk1 : ∀ p, getLedgerHashIndexAll hf ≠ getLedgerHashIndexFor hf p) :
    SHAMap.peekItem (updateSkipList hf seq parentHash m)
        (getLedgerHashIndexAll hf) =
      some ⟨getLedgerHashIndexAll hf,
        LEModel.hashIndex
          (slidingNext (priorHashes m (getLedgerHashIndexAll hf)) parentHash)
          (seq - 1)⟩ := by
  have key : ∀ m1 : SHAMap LEModel,
      SHAMap.peekItem m1 (getLedgerHashIndexAll hf) =
        SHAMap.peekItem m (getLedgerHashIndexAll hf) →
      SHAMap.peekItem
        ((writeBack lepCREATE
          ⟨getLedgerHashIndexAll hf,
           LEModel.hashIndex
             (slidingNext (priorHashes m1 (getLedgerHashIndexAll hf))
               parentHash) (seq - 1)⟩ m1).2)
        (getLedgerHashIndexAll hf) =
      some ⟨getLedgerHashIndexAll hf,
        LEModel.hashIndex
          (slidingNext (priorHashes m (getLedgerHashIndexAll hf)) parentHash)
          (seq - 1)⟩ := by
    intro m1 hm1
    have hpr : priorHashes m1 (getLedgerHashIndexAll hf) =
        priorHashes m (getLedgerHashIndexAll hf) := by
      rw [priorHashes, priorHashes, hm1]
    rw [hpr]
    exact writeBack_create_peekItem_self _ _
  simp only [updateSkipList, if_neg hseq]
  by_cases hp : (seq - 1) % 256 = 0
  · rw [if_pos hp]
    exact key _ (writeBack_peekItem_other _ _ _ _ (hk1 (seq - 1)))
  · rw [if_neg hp]
    exact key m rfl

/-- C4 counterexample: in a concrete two-ledger chain, after
`updateSkipList` runs in the successor at sequence 2 the sliding skiplist
holds exactly one hash (the genesis hash), not `min(2, 256) = 2`. -/
theorem C4_skiplist_counterexample :
    SHAMap.peekItem (skipChain hfC4 5 hSeqC4 2) (getLedgerHashIndexAll hfC4) =
      some ⟨getLedgerHashIndexAll hfC4, LEModel.hashIndex [hSeqC4 1] 1⟩ ∧
    ¬ ([hSeqC4 1].length = min 2 256) := by
  decide

/-- C4 amended: along a chain built from genesis (sequence 1) by successor
construction, after `updateSkipList` runs in the ledger at sequence
`n ≥ 2` the sliding skiplist entry holds `min(n − 1, 256)` hashes, its
last element is the parent hash of that ledger, and its
LastLedgerSequence field is `n − 1`. -/
theorem C4_skiplist_sliding (hf : List Nat → Nat) (aIdx : H256)
    (h : Nat → H256)
    (hk1 : ∀ p, getLedgerHashIndexAll hf ≠ getLedgerHashIndexFor hf p)
    (hk2 : getLedgerHashIndexAll hf ≠ aIdx) (n : Nat) (hn : 2 ≤ n) :
    ∃ L : List H256,
      SHAMap.peekItem (skipChain hf aIdx h n) (getLedgerHashIndexAll hf) =
        some ⟨getLedgerHashIndexAll hf, LEModel.hashIndex L (n - 1)⟩ ∧
      L.length = min (n - 1) 256 ∧ L.getLast? = some (h (n - 1)) := by
  induction n, hn using Nat.le_induction with
  | base =>
    refine ⟨[h 1], ?_, by simp, by simp⟩
    rw [show skipChain hf aIdx h 2 =
          updateSkipList hf 2 (h 1) (skipChain hf aIdx h 1) from rfl,
      updateSkipList_peekAll hf 2 (h 1) _ (by norm_num) hk1]
    have hpr : priorHashes (skipChain hf aIdx h 1)
        (getLedgerHashIndexAll hf) = [] := by
      rw [priorHashes,
        show skipChain hf aIdx h 1 = [⟨aIdx, LEModel.acctRoot 0⟩] from rfl,
        SHAMap.peekItem, List.find?_cons_of_neg _ (by simp [Ne.symm hk2])]
      rfl
    rw [hpr]
    rfl
  | succ n hn2 ih =>
    obtain ⟨L, hpeek, hlen, hlast⟩ := ih
    have hstep : skipChain hf aIdx h (n + 1) =
        updateSkipList hf (n + 1) (h n) (skipChain hf aIdx h n) := by
      obtain ⟨p, rfl⟩ : ∃ p, n = p + 1 := ⟨n - 1, by omega⟩
      rfl
    rw [hstep, updateSkipList_peekAll hf (n + 1) (h n) _ (by omega) hk1]
    have hpr : priorHashes (skipChain hf aIdx h n)
        (getLedgerHashIndexAll hf) = L := by
      rw [priorHashes, hpeek]
      rfl
    rw [hpr]
    refine ⟨slidingNext L (h n), rfl, ?_, ?_⟩
    · rw [slidingNext]
      by_cases h256 : L.length = 256
      · rw [if_pos h256]
        simp only [List.length_append, List.length_drop, List.length_cons,
          List.length_nil]
        omega
      · rw [if_neg h256]
        simp only [List.length_append, List.length_cons, List.length_nil]
        omega
    · rw [slidingNext]
      exact List.getLast?_concat _

/-- C4 witness for the amended statement: the chain at sequence 3 with the
concrete digest `hfC4`, genesis account key 5 and ledger hashes
`hSeqC4`. -/
theorem C4_skiplist_sliding_witness :
    ∃ L : List H256,
      SHAMap.peekItem (skipChain hfC4 5 hSeqC4 3) (getLedgerHashIndexAll hfC4) =
        some ⟨getLedgerHashIndexAll hfC4, LEModel.hashIndex L (3 - 1)⟩ ∧
      L.length = min (3 - 1) 256 ∧ L.getLast? = some (hSeqC4 (3 - 1)) :=
  C4_skiplist_sliding hfC4 5 hSeqC4
    (fun p => by
      simp [getLedgerHashIndexAll, getLedgerHashIndexFor, hfC4, beBytes,
        List.length_append, List.length_map, List.length_range])
    (by decide) 3 (by norm_num)

end RippleLedger
